import Mathlib

/-!
Verification of the EigenScript native transformer engine
(src/native/bootstrap/eigenscript.c): tensor kernels, attention
probabilities, GELU and its backward multiplier, the training-step
guard and update phases, the replay buffer, and the generation loop.
Matrices are index functions over the reals; machine doubles are
modelled as reals, with the IEEE minus-infinity written by the causal
mask and the NaN/Inf values tested by the training guard made explicit.
-/

namespace EigenScript

/-- Value of one attention-score cell: either a finite real or the
IEEE minus-infinity written by the causal mask. -/
inductive EVal where
  | ninf : EVal
  | val : ℝ → EVal

/-- Maximum of two score cells, as computed by the comparison loop of
ne_softmax_buf (minus-infinity loses every comparison). -/
noncomputable def maxE : EVal → EVal → EVal
  | .ninf, b => b
  | .val a, .ninf => .val a
  | .val a, .val b => .val (max a b)

/-- Running maximum over the first n cells of a row, as in
ne_softmax_buf (folding from below every cell, which for n ≥ 1 equals
the loop that starts from cell 0). -/
noncomputable def rowMaxE (f : ℕ → EVal) (n : ℕ) : EVal :=
  ((List.range n).map f).foldl maxE .ninf

/-- Exponentiation step of ne_softmax_buf: exp(cell − rowmax), where a
minus-infinity cell exponentiates to 0. The val/ninf case never arises
in use, because the fold computing the row maximum is never below a
finite cell of the row. -/
noncomputable def expShift : EVal → EVal → ℝ
  | .ninf, _ => 0
  | .val r, .val m => Real.exp (r - m)
  | .val _, .ninf => 0

/-- Row-wise softmax of ne_softmax_buf over the first n columns:
subtract the row maximum, exponentiate, divide by the row sum. -/
noncomputable def softmaxRowE (f : ℕ → EVal) (n : ℕ) (j : ℕ) : ℝ :=
  expShift (f j) (rowMaxE f n) / ∑ t ∈ Finset.range n, expShift (f t) (rowMaxE f n)

/-- Embedding of ne_softmax_buf on an r × c buffer of plain (finite)
doubles: rows below r are softmaxed in place, other rows untouched. -/
noncomputable def neSoftmaxBuf (x : ℕ → ℕ → ℝ) (r c : ℕ) : ℕ → ℕ → ℝ :=
  fun i j => if i < r then softmaxRowE (fun t => EVal.val (x i t)) c j else x i j

/-- Embedding of ne_matmul_buf: out[i][j] = Σ_t a[i][t]·b[t][j] (the
tiling of the C loop nest only reorders additions of the same sum). -/
noncomputable def neMatmulBuf (a b : ℕ → ℕ → ℝ) (k : ℕ) : ℕ → ℕ → ℝ :=
  fun i j => ∑ t ∈ Finset.range k, a i t * b t j

/-- Raw attention scores Q·Kᵀ of ne_fused_attention_forward_buf, with
Q = x·wq and K = x·wk; the C code materializes Kᵀ and multiplies. -/
noncomputable def attnScoresRaw (x wq wk : ℕ → ℕ → ℝ) (d : ℕ) : ℕ → ℕ → ℝ :=
  fun i j => ∑ t ∈ Finset.range d, neMatmulBuf x wq d i t * neMatmulBuf x wk d j t

/-- Scaled and causally masked scores of ne_fused_attention_forward_buf:
multiply by 1/√d_model, then overwrite every strictly-upper-triangular
cell (j > i) with minus-infinity. -/
noncomputable def maskedScores (x wq wk : ℕ → ℕ → ℝ) (d : ℕ) : ℕ → ℕ → EVal :=
  fun i j =>
    if i < j then EVal.ninf
    else EVal.val (attnScoresRaw x wq wk d i j * (1 / Real.sqrt d))

/-- Attention-probability matrix written to attn_probs_out by
ne_fused_attention_forward_buf: row-wise softmax of the masked scores
over the seq_len columns. -/
noncomputable def attnProbs (x wq wk : ℕ → ℕ → ℝ) (n d : ℕ) : ℕ → ℕ → ℝ :=
  fun i j => softmaxRowE (maskedScores x wq wk d i) n j

/-- Embedding of ne_gelu_buf on one element: the tanh-approximation GELU. -/
noncomputable def neGelu (x : ℝ) : ℝ :=
  0.5 * x * (1 + Real.tanh (Real.sqrt (2 / Real.pi) * (x + 0.044715 * x * x * x)))

/-- Embedding of ne_gelu_buf over a whole buffer: neGelu elementwise. -/
noncomputable def neGeluBuf (data : List ℝ) : List ℝ := data.map neGelu

/-- Backward GELU multiplier computed by ne_fused_ffn_backward_buf at a
cached pre-activation h: cdf + h·pdf with cdf from the tanh
approximation and pdf = exp(−h²/2)/√(2π), the standard normal density. -/
noncomputable def geluGrad (h : ℝ) : ℝ :=
  0.5 * (1 + Real.tanh (Real.sqrt (2 / Real.pi) * (h + 0.044715 * h * h * h))) +
    h * (Real.exp (-0.5 * h * h) / Real.sqrt (2 * Real.pi))

/-- Analytic derivative of the forward tanh-approximation GELU. -/
noncomputable def geluTanhDeriv (x : ℝ) : ℝ :=
  0.5 * (1 + Real.tanh (Real.sqrt (2 / Real.pi) * (x + 0.044715 * x * x * x))) +
    0.5 * x * (1 - Real.tanh (Real.sqrt (2 / Real.pi) * (x + 0.044715 * x * x * x)) ^ 2) *
      (Real.sqrt (2 / Real.pi) * (1 + 3 * 0.044715 * x * x))

theorem expShift_nonneg (e m : EVal) : 0 ≤ expShift e m := by
  cases e with
  | ninf => exact le_refl 0
  | val r =>
    cases m with
    | ninf => exact le_refl 0
    | val s => exact (Real.exp_pos _).le

theorem maxE_val (p q : EVal) :
    ((∃ a : ℝ, p = .val a) ∨ ∃ b : ℝ, q = .val b) →
    ∃ m : ℝ, maxE p q = .val m := by
  intro h
  cases p with
  | ninf =>
    cases q with
    | ninf =>
      rcases h with ⟨a, ha⟩ | ⟨b, hb⟩
      · exact absurd ha (by simp)
      · exact absurd hb (by simp)
    | val b => exact ⟨b, rfl⟩
  | val a =>
    cases q with
    | ninf => exact ⟨a, rfl⟩
    | val b => exact ⟨max a b, rfl⟩

theorem foldl_maxE_val (l : List EVal) (acc : EVal) :
    ((∃ a : ℝ, EVal.val a ∈ l) ∨ ∃ b : ℝ, acc = .val b) →
    ∃ m : ℝ, l.foldl maxE acc = .val m := by
  induction l generalizing acc with
  | nil =>
    rintro (⟨a, ha⟩ | ⟨b, hb⟩)
    · simp at ha
    · exact ⟨b, by simpa using hb⟩
  | cons e rest ih =>
    rintro (⟨a, ha⟩ | ⟨b, hb⟩)
    · rcases List.mem_cons.mp ha with h | h
      · exact ih (maxE acc e) (Or.inr (maxE_val acc e (Or.inr ⟨a, h.symm⟩)))
      · exact ih _ (Or.inl ⟨a, h⟩)
    · exact ih _ (Or.inr (maxE_val acc e (Or.inl ⟨b, hb⟩)))

theorem rowMaxE_val (f : ℕ → EVal) (n k : ℕ) (a : ℝ)
    (hk : k < n) (hf : f k = .val a) : ∃ m : ℝ, rowMaxE f n = .val m := by
  apply foldl_maxE_val
  exact Or.inl ⟨a, List.mem_map.mpr ⟨k, List.mem_range.mpr hk, hf⟩⟩

theorem expShift_pos (f : ℕ → EVal) (n j : ℕ) (r : ℝ)
    (hj : f j = .val r) (hm : ∃ m : ℝ, rowMaxE f n = .val m) :
    0 < expShift (f j) (rowMaxE f n) := by
  obtain ⟨m, hm⟩ := hm
  rw [hj, hm]
  exact Real.exp_pos _

/-- C2: in the attention-probability matrix produced by the fused
attention forward pass, every strictly-upper-triangular entry (the
probability from position i to a strictly later position j) is exactly
0, and the row normalizer is strictly positive. -/
theorem attention_causal_mask (x wq wk : ℕ → ℕ → ℝ) (n d i j : ℕ)
    (hij : i < j) (hj : j < n) :
    attnProbs x wq wk n d i j = 0 ∧
      0 < ∑ t ∈ Finset.range n,
        expShift (maskedScores x wq wk d i t) (rowMaxE (maskedScores x wq wk d i) n) := by
  have hi : i < n := lt_trans hij hj
  have hdiag : maskedScores x wq wk d i i =
      .val (attnScoresRaw x wq wk d i i * (1 / Real.sqrt d)) := by
    simp [maskedScores]
  have hmax : ∃ m : ℝ, rowMaxE (maskedScores x wq wk d i) n = .val m :=
    rowMaxE_val _ n i _ hi hdiag
  constructor
  · have hmask : maskedScores x wq wk d i j = .ninf := by
      simp [maskedScores, hij]
    simp [attnProbs, softmaxRowE, hmask, expShift]
  · apply Finset.sum_pos'
    · intro t _
      exact expShift_nonneg _ _
    · exact ⟨i, Finset.mem_range.mpr hi, expShift_pos _ n i _ hdiag hmax⟩

/-- C2 witness at a concrete input: position 0 attends to position 1
with probability exactly 0 in a 2-token sequence. -/
theorem attention_causal_mask_witness :
    (0 < 1 ∧ 1 < 2) ∧
      attnProbs (fun _ _ => 0) (fun _ _ => 0) (fun _ _ => 0) 2 1 0 1 = 0 :=
  ⟨⟨by decide, by decide⟩,
    (attention_causal_mask (fun _ _ => 0) (fun _ _ => 0) (fun _ _ => 0) 2 1 0 1
      (by decide) (by decide)).1⟩

/-- C5: after ne_softmax_buf runs on an r × c matrix of finite entries,
every processed row consists of nonnegative entries summing exactly to
1 (in the real-arithmetic embedding). -/
theorem softmax_rows_sum_one (x : ℕ → ℕ → ℝ) (r c i : ℕ)
    (hc : 1 ≤ c) (hi : i < r) :
    (∀ j, j < c → 0 ≤ neSoftmaxBuf x r c i j) ∧
      ∑ j ∈ Finset.range c, neSoftmaxBuf x r c i j = 1 := by
  have hrow : ∀ j, neSoftmaxBuf x r c i j =
      softmaxRowE (fun t => EVal.val (x i t)) c j := by
    intro j; simp [neSoftmaxBuf, hi]
  have hmax : ∃ m : ℝ, rowMaxE (fun t => EVal.val (x i t)) c = .val m :=
    rowMaxE_val _ c 0 (x i 0) hc rfl
  set S : ℝ := ∑ t ∈ Finset.range c,
    expShift (EVal.val (x i t)) (rowMaxE (fun t => EVal.val (x i t)) c) with hS
  have hSpos : 0 < S := by
    apply Finset.sum_pos'
    · intro t _
      exact expShift_nonneg _ _
    · exact ⟨0, Finset.mem_range.mpr hc, expShift_pos (fun t => EVal.val (x i t)) c 0 _ rfl hmax⟩
  constructor
  · intro j _
    rw [hrow j]
    exact div_nonneg (expShift_nonneg _ _) (le_of_lt hSpos)
  · calc ∑ j ∈ Finset.range c, neSoftmaxBuf x r c i j
        = ∑ j ∈ Finset.range c,
            expShift (EVal.val (x i j)) (rowMaxE (fun t => EVal.val (x i t)) c) / S := by
          apply Finset.sum_congr rfl
          intro j _
          rw [hrow j]
          rfl
      _ = S / S := by rw [← Finset.sum_div]
      _ = 1 := div_self (ne_of_gt hSpos)

/-- C5 witness at a concrete input: the single row of a 1 × 1 matrix
softmaxes to nonnegative entries summing to 1. -/
theorem softmax_rows_sum_one_witness :
    (1 ≤ 1 ∧ 0 < 1) ∧
      ∑ j ∈ Finset.range 1, neSoftmaxBuf (fun _ _ => 0) 1 1 0 j = 1 :=
  ⟨⟨by decide, by decide⟩,
    (softmax_rows_sum_one (fun _ _ => 0) 1 1 0 (by decide) (by decide)).2⟩

theorem tanh_hasDerivAt (x : ℝ) :
    HasDerivAt Real.tanh (1 - Real.tanh x ^ 2) x := by
  have hc : Real.cosh x ≠ 0 := ne_of_gt (Real.cosh_pos x)
  have h := (Real.hasDerivAt_sinh x).div (Real.hasDerivAt_cosh x) hc
  have hval : (Real.cosh x * Real.cosh x - Real.sinh x * Real.sinh x) / Real.cosh x ^ 2 =
      1 - Real.tanh x ^ 2 := by
    rw [Real.tanh_eq_sinh_div_cosh, div_pow]
    field_simp
    nlinarith [Real.cosh_sq_sub_sinh_sq x]
  rw [hval] at h
  have heq : (fun y => Real.sinh y / Real.cosh y) = Real.tanh := by
    funext y
    exact (Real.tanh_eq_sinh_div_cosh y).symm
  rw [heq] at h
  exact h

theorem neGelu_hasDerivAt (x : ℝ) : HasDerivAt neGelu (geluTanhDeriv x) x := by
  have hid := hasDerivAt_id x
  have hcube : HasDerivAt (fun y : ℝ => 0.044715 * y * y * y)
      (((0.044715 * 1) * x + 0.044715 * x * 1) * x + 0.044715 * x * x * 1) x :=
    ((hid.const_mul 0.044715).mul hid).mul hid
  have hinner : HasDerivAt (fun y : ℝ => y + 0.044715 * y * y * y)
      (1 + ((((0.044715 * 1) * x + 0.044715 * x * 1) * x + 0.044715 * x * x * 1))) x :=
    hid.add hcube
  have hscaled := hinner.const_mul (Real.sqrt (2 / Real.pi))
  have htanh :=
    (tanh_hasDerivAt (Real.sqrt (2 / Real.pi) * (x + 0.044715 * x * x * x))).comp x hscaled
  have h1t := htanh.const_add (1 : ℝ)
  have hhalf : HasDerivAt (fun y : ℝ => 0.5 * y) (0.5 * 1) x := hid.const_mul 0.5
  have hprod := hhalf.mul h1t
  convert hprod using 1
  unfold geluTanhDeriv
  simp only [Function.comp]
  ring

/-- C3: the forward GELU is the tanh approximation and geluTanhDeriv is
its true analytic derivative everywhere; but the backward multiplier
computed by ne_fused_ffn_backward_buf (tanh cdf plus h times the exact
standard-normal density) differs from that derivative at h = 10, so the
backward pass does not use the derivative of the forward approximation. -/
theorem gelu_backward_multiplier_mismatch :
    (∀ x : ℝ, HasDerivAt neGelu (geluTanhDeriv x) x) ∧
      geluGrad 10 ≠ geluTanhDeriv 10 := by
  constructor
  · exact neGelu_hasDerivAt
  · have hπpos := Real.pi_pos
    have hπ2 := Real.pi_lt_d2
    have hπ3 := Real.pi_gt_three
    have hc0 : 0 ≤ Real.sqrt (2 / Real.pi) := Real.sqrt_nonneg _
    have hc1 : Real.sqrt (2 / Real.pi) ≤ 1 := by
      rw [show (1 : ℝ) = Real.sqrt 1 by simp]
      apply Real.sqrt_le_sqrt
      rw [div_le_one hπpos]
      linarith
    have hc2 : (0.79 : ℝ) ≤ Real.sqrt (2 / Real.pi) := by
      rw [Real.le_sqrt (by norm_num) (by positivity)]
      rw [le_div_iff hπpos]
      nlinarith
    have hu : (43 : ℝ) ≤ Real.sqrt (2 / Real.pi) * 54.715 := by nlinarith
    have hcosh : Real.exp (Real.sqrt (2 / Real.pi) * 54.715) / 2 ≤
        Real.cosh (Real.sqrt (2 / Real.pi) * 54.715) := by
      rw [Real.cosh_eq]
      have := Real.exp_pos (-(Real.sqrt (2 / Real.pi) * 54.715))
      linarith
    have htanh1 : 1 - Real.tanh (Real.sqrt (2 / Real.pi) * 54.715) ^ 2 =
        1 / Real.cosh (Real.sqrt (2 / Real.pi) * 54.715) ^ 2 := by
      rw [Real.tanh_eq_sinh_div_cosh, div_pow]
      have hcp := Real.cosh_pos (Real.sqrt (2 / Real.pi) * 54.715)
      field_simp
    have htanh : 1 - Real.tanh (Real.sqrt (2 / Real.pi) * 54.715) ^ 2 ≤
        4 * Real.exp (-(2 * (Real.sqrt (2 / Real.pi) * 54.715))) := by
      rw [htanh1]
      have hep := Real.exp_pos (Real.sqrt (2 / Real.pi) * 54.715)
      have hcp := Real.cosh_pos (Real.sqrt (2 / Real.pi) * 54.715)
      have hsq : Real.exp (Real.sqrt (2 / Real.pi) * 54.715) ^ 2 ≤
          4 * Real.cosh (Real.sqrt (2 / Real.pi) * 54.715) ^ 2 := by nlinarith
      have hrw : Real.exp (-(2 * (Real.sqrt (2 / Real.pi) * 54.715))) =
          1 / Real.exp (Real.sqrt (2 / Real.pi) * 54.715) ^ 2 := by
        rw [Real.exp_neg, two_mul, Real.exp_add, ← sq, one_div]
      rw [hrw, mul_one_div]
      rw [div_le_div_iff (by positivity) (by positivity)]
      nlinarith
    have hexp36 : (361 : ℝ) ≤ Real.exp 36 := by
      have h18 : (19 : ℝ) ≤ Real.exp 18 := by linarith [Real.add_one_le_exp (18 : ℝ)]
      have h36 : Real.exp 36 = Real.exp 18 * Real.exp 18 := by
        rw [← Real.exp_add]
        norm_num
      nlinarith [Real.exp_pos (18 : ℝ)]
    have hs2pi : Real.sqrt (2 * Real.pi) ≤ 2.6 := by
      rw [show (2.6 : ℝ) = Real.sqrt (2.6 ^ 2) from (Real.sqrt_sq (by norm_num)).symm]
      apply Real.sqrt_le_sqrt
      nlinarith
    have hs2pi0 : 0 < Real.sqrt (2 * Real.pi) := Real.sqrt_pos.mpr (by positivity)
    have hexpneg : Real.exp (-(2 * (Real.sqrt (2 / Real.pi) * 54.715))) ≤
        Real.exp (-(86 : ℝ)) := by
      apply Real.exp_le_exp.mpr
      linarith
    have ht0 : 0 ≤ 1 - Real.tanh (Real.sqrt (2 / Real.pi) * 54.715) ^ 2 := by
      rw [htanh1]
      positivity
    have hL : 5 * (1 - Real.tanh (Real.sqrt (2 / Real.pi) * 54.715) ^ 2) *
        (Real.sqrt (2 / Real.pi) * 14.4145) ≤ 289 * Real.exp (-(86 : ℝ)) := by
      have t1 : 1 - Real.tanh (Real.sqrt (2 / Real.pi) * 54.715) ^ 2 ≤
          4 * Real.exp (-(86 : ℝ)) := le_trans htanh (by nlinarith [Real.exp_pos (-(86 : ℝ))])
      nlinarith [Real.exp_pos (-(86 : ℝ))]
    have hR : (3.8 : ℝ) * Real.exp (-50) ≤
        10 * (Real.exp (-50) / Real.sqrt (2 * Real.pi)) := by
      have hdd : Real.exp (-50) / 2.6 ≤ Real.exp (-50) / Real.sqrt (2 * Real.pi) :=
        div_le_div_of_nonneg_left (Real.exp_pos _).le hs2pi0 hs2pi
      have hE : (0 : ℝ) < Real.exp (-50) := Real.exp_pos _
      have hstep : (3.8 : ℝ) * Real.exp (-50) ≤ 10 * (Real.exp (-50) / 2.6) := by
        rw [mul_div_assoc']
        rw [le_div_iff (by norm_num : (0 : ℝ) < 2.6)]
        linarith
      linarith
    have hmid : 289 * Real.exp (-(86 : ℝ)) < 3.8 * Real.exp (-50) := by
      have hsplit : Real.exp (-(50 : ℝ)) = Real.exp 36 * Real.exp (-(86 : ℝ)) := by
        rw [← Real.exp_add]
        norm_num
      have he86 := Real.exp_pos (-(86 : ℝ))
      nlinarith
    have key : 5 * (1 - Real.tanh (Real.sqrt (2 / Real.pi) * 54.715) ^ 2) *
        (Real.sqrt (2 / Real.pi) * 14.4145) <
        10 * (Real.exp (-50) / Real.sqrt (2 * Real.pi)) := by
      calc 5 * (1 - Real.tanh (Real.sqrt (2 / Real.pi) * 54.715) ^ 2) *
          (Real.sqrt (2 / Real.pi) * 14.4145) ≤ 289 * Real.exp (-(86 : ℝ)) := hL
        _ < 3.8 * Real.exp (-50) := hmid
        _ ≤ 10 * (Real.exp (-50) / Real.sqrt (2 * Real.pi)) := hR
    have h1 : geluGrad 10 =
        0.5 * (1 + Real.tanh (Real.sqrt (2 / Real.pi) * 54.715)) +
          10 * (Real.exp (-50) / Real.sqrt (2 * Real.pi)) := by
      unfold geluGrad
      norm_num
    have h2 : geluTanhDeriv 10 =
        0.5 * (1 + Real.tanh (Real.sqrt (2 / Real.pi) * 54.715)) +
          5 * (1 - Real.tanh (Real.sqrt (2 / Real.pi) * 54.715) ^ 2) *
            (Real.sqrt (2 / Real.pi) * 14.4145) := by
      unfold geluTanhDeriv
      norm_num
    intro heq
    rw [h1, h2] at heq
    have := add_left_cancel heq
    linarith [key, this]

/-- Value of one double cell as seen by the training-step guard and
update: a finite real, or one of the IEEE non-finite values NaN, +Inf,
−Inf (isnan/isinf are the tests the guard performs). -/
inductive FVal where
  | fin : ℝ → FVal
  | nan : FVal
  | inf : FVal
  | ninf : FVal

/-- Guard test on one cell: isnan(v) || isinf(v). -/
def isBad : FVal → Bool
  | .fin _ => false
  | .nan => true
  | .inf => true
  | .ninf => true

/-- IEEE double multiplication on guard-level cells. -/
noncomputable def mulF : FVal → FVal → FVal
  | .fin a, .fin b => .fin (a * b)
  | .nan, _ => .nan
  | _, .nan => .nan
  | .fin a, .inf => if 0 < a then .inf else if a < 0 then .ninf else .nan
  | .fin a, .ninf => if 0 < a then .ninf else if a < 0 then .inf else .nan
  | .inf, .fin b => if 0 < b then .inf else if b < 0 then .ninf else .nan
  | .ninf, .fin b => if 0 < b then .ninf else if b < 0 then .inf else .nan
  | .inf, .inf => .inf
  | .inf, .ninf => .ninf
  | .ninf, .inf => .ninf
  | .ninf, .ninf => .inf

/-- IEEE double subtraction on guard-level cells. -/
def subF : FVal → FVal → FVal
  | .fin a, .fin b => .fin (a - b)
  | .nan, _ => .nan
  | _, .nan => .nan
  | .fin _, .inf => .ninf
  | .fin _, .ninf => .inf
  | .inf, .fin _ => .inf
  | .ninf, .fin _ => .ninf
  | .inf, .inf => .nan
  | .inf, .ninf => .inf
  | .ninf, .inf => .ninf
  | .ninf, .ninf => .nan

/-- Ten weight tensors of one TransformerLayer, as flat cell lists. -/
structure TransformerLayer where
  w_q : List FVal
  w_k : List FVal
  w_v : List FVal
  w_o : List FVal
  w_ff1 : List FVal
  w_ff2 : List FVal
  ln1_gamma : List FVal
  ln1_beta : List FVal
  ln2_gamma : List FVal
  ln2_beta : List FVal

/-- Model state mutated by native_train_step: embedding table, output
projection, and the layer stack. -/
structure TransformerModel where
  token_embeddings : List FVal
  output_proj : List FVal
  layers : List TransformerLayer

/-- Per-layer gradient accumulators lg_* of native_train_step. -/
structure LayerGrads where
  lg_wq : List FVal
  lg_wk : List FVal
  lg_wv : List FVal
  lg_wo : List FVal
  lg_ff1 : List FVal
  lg_ff2 : List FVal
  lg_ln1g : List FVal
  lg_ln1b : List FVal
  lg_ln2g : List FVal
  lg_ln2b : List FVal

/-- Outcome of native_train_step: the model state, the g_model_age and
g_training_samples counters, and whether the step returned 0 (ok). -/
structure TrainOutcome where
  model : TransformerModel
  age : ℕ
  samples : ℕ
  ok : Bool

/-- SGD update of one tensor: w[i] := w[i] − rate·g[i] cellwise. -/
noncomputable def updVec (rate : FVal) (w g : List FVal) : List FVal :=
  List.zipWith (fun wi gi => subF wi (mulF rate gi)) w g

/-- Update of the ten tensors of one layer at the scaled rate
(scale = effective_lr · 0.1 in the C code). -/
noncomputable def updLayer (scale : FVal) (L : TransformerLayer) (G : LayerGrads) :
    TransformerLayer where
  w_q := updVec scale L.w_q G.lg_wq
  w_k := updVec scale L.w_k G.lg_wk
  w_v := updVec scale L.w_v G.lg_wv
  w_o := updVec scale L.w_o G.lg_wo
  w_ff1 := updVec scale L.w_ff1 G.lg_ff1
  w_ff2 := updVec scale L.w_ff2 G.lg_ff2
  ln1_gamma := updVec scale L.ln1_gamma G.lg_ln1g
  ln1_beta := updVec scale L.ln1_beta G.lg_ln1b
  ln2_gamma := updVec scale L.ln2_gamma G.lg_ln2g
  ln2_beta := updVec scale L.ln2_beta G.lg_ln2b

/-- Guard-and-update phase of native_train_step (everything after the
token loop): test the mean loss, then the output-projection and
embedding-table gradient accumulators, for NaN/Inf; on a trip return
failure with nothing mutated; otherwise subtract effective_lr times the
gradient from the embedding table and output projection, subtract
effective_lr·0.1 times the accumulated gradient from every layer
tensor, add num_tokens to the age and 1 to the sample counter. The
per-layer accumulators are exactly as the C code: not inspected. -/
noncomputable def guardUpdate (effLr avgLoss : FVal)
    (gradTokenEmb gradOutputProj : List FVal) (lgs : List LayerGrads)
    (numTokens : ℕ) (m : TransformerModel) (age samples : ℕ) : TrainOutcome :=
  if isBad avgLoss then ⟨m, age, samples, false⟩
  else if gradOutputProj.any isBad || gradTokenEmb.any isBad then ⟨m, age, samples, false⟩
  else
    ⟨⟨updVec effLr m.token_embeddings gradTokenEmb,
      updVec effLr m.output_proj gradOutputProj,
      List.zipWith (updLayer (mulF effLr (.fin 0.1))) m.layers lgs⟩,
     age + numTokens, samples + 1, true⟩

/-- Embedding of sanitize_training_text on one byte: drop control bytes
other than newline and tab, drop DEL, replace quote characters (0x27,
0x60, 0x22), backslash and every byte at or above 128 by a space, keep
the rest. -/
def sanitizeByte (c : ℕ) : Option ℕ :=
  if c < 32 ∧ c ≠ 10 ∧ c ≠ 9 then none
  else if c = 127 then none
  else if c = 39 ∨ c = 96 ∨ c = 34 ∨ c = 92 then some 32
  else if 128 ≤ c then some 32
  else some c

/-- Embedding of sanitize_training_text over a whole byte string. -/
def sanitizeText (s : List ℕ) : List ℕ := s.filterMap sanitizeByte

/-- Token sequence built by native_train_step: sanitize both texts and
reduce each byte modulo vocab_size, prompt bytes first. -/
def trainTokens (inputText outputText : List ℕ) (vocabSize : ℕ) : List ℕ :=
  (sanitizeText inputText).map (fun c => c % vocabSize) ++
    (sanitizeText outputText).map (fun c => c % vocabSize)

/-- Control skeleton of native_train_step: tokenize, fail on a combined
length below 2 with nothing mutated, otherwise run the per-position
loss/gradient loop (abstracted as an oracle producing the mean loss and
the accumulated gradients from the token sequence) and enter the
guard-and-update phase with effective rate
learning_rate / ln(model_age + e) and num_tokens = length − 1. -/
noncomputable def nativeTrainStep (inputText outputText : List ℕ) (vocabSize : ℕ)
    (learningRate : ℝ) (m : TransformerModel) (age samples : ℕ)
    (oracle : List ℕ → FVal × List FVal × List FVal × List LayerGrads) : TrainOutcome :=
  if (trainTokens inputText outputText vocabSize).length < 2 then
    ⟨m, age, samples, false⟩
  else
    guardUpdate (.fin (learningRate / Real.log (age + Real.exp 1)))
      (oracle (trainTokens inputText outputText vocabSize)).1
      (oracle (trainTokens inputText outputText vocabSize)).2.1
      (oracle (trainTokens inputText outputText vocabSize)).2.2.1
      (oracle (trainTokens inputText outputText vocabSize)).2.2.2
      ((trainTokens inputText outputText vocabSize).length - 1) m age samples

theorem zipWith_get?_some {α β γ : Type} (f : α → β → γ) (as : List α) (bs : List β)
    (i : ℕ) (a : α) (b : β) (ha : as.get? i = some a) (hb : bs.get? i = some b) :
    (List.zipWith f as bs).get? i = some (f a b) := by
  induction as generalizing bs i with
  | nil => simp at ha
  | cons x xs ih =>
    cases bs with
    | nil => simp at hb
    | cons y ys =>
      cases i with
      | zero =>
        simp only [List.get?_cons_zero, Option.some_inj] at ha hb
        simp [List.zipWith_cons_cons, ha, hb]
      | succ n =>
        simp only [List.get?_cons_succ] at ha hb
        simpa [List.zipWith_cons_cons] using ih ys n ha hb

theorem updVec_get? (r : FVal) (w g : List FVal) (i : ℕ) (a b : ℝ)
    (hw : w.get? i = some (.fin a)) (hg : g.get? i = some (.fin b)) :
    (updVec r w g).get? i = some (subF (.fin a) (mulF r (.fin b))) :=
  zipWith_get?_some _ w g i _ _ hw hg

theorem updVec_fin_get? (e : ℝ) (w g : List FVal) (i : ℕ) (a b : ℝ)
    (hw : w.get? i = some (.fin a)) (hg : g.get? i = some (.fin b)) :
    (updVec (.fin e) w g).get? i = some (.fin (a - e * b)) :=
  updVec_get? (.fin e) w g i a b hw hg

theorem updVec_scaled_get? (e : ℝ) (w g : List FVal) (i : ℕ) (a b : ℝ)
    (hw : w.get? i = some (.fin a)) (hg : g.get? i = some (.fin b)) :
    (updVec (mulF (.fin e) (.fin 0.1)) w g).get? i = some (.fin (a - 0.1 * e * b)) := by
  have h := updVec_get? (mulF (.fin e) (.fin 0.1)) w g i a b hw hg
  rw [h]
  have hv : subF (.fin a) (mulF (mulF (.fin e) (.fin 0.1)) (.fin b)) =
      FVal.fin (a - e * 0.1 * b) := rfl
  rw [hv]
  have : a - e * 0.1 * b = a - 0.1 * e * b := by ring
  rw [this]

/-- C1 (amended): whenever the mean loss, or any cell of the
output-projection or embedding-table gradient accumulators, is NaN/Inf,
native_train_step discards the entire update — the model and both
counters are unchanged — and reports failure. (The per-layer
accumulators are not part of the check; see the counterexample.) -/
theorem train_guard_discards_checked_nan (effLr avgLoss : FVal)
    (gEmb gOut : List FVal) (lgs : List LayerGrads) (numTokens : ℕ)
    (m : TransformerModel) (age samples : ℕ)
    (h : isBad avgLoss = true ∨ gOut.any isBad = true ∨ gEmb.any isBad = true) :
    guardUpdate effLr avgLoss gEmb gOut lgs numTokens m age samples =
      ⟨m, age, samples, false⟩ := by
  unfold guardUpdate
  rcases h with h | h | h
  · simp [h]
  · cases hL : isBad avgLoss
    · simp [hL, h]
    · simp [hL]
  · cases hL : isBad avgLoss
    · simp [hL, h]
    · simp [hL]

/-- C1 witness: a NaN mean loss at a concrete state trips the guard and
leaves everything unchanged with failure reported. -/
theorem train_guard_discards_checked_nan_witness :
    (isBad FVal.nan = true ∨ ([] : List FVal).any isBad = true ∨
        ([] : List FVal).any isBad = true) ∧
      guardUpdate (FVal.fin 1) FVal.nan [] [] [] 0 ⟨[], [], []⟩ 0 0 =
        ⟨⟨[], [], []⟩, 0, 0, false⟩ :=
  ⟨Or.inl rfl,
    train_guard_discards_checked_nan (FVal.fin 1) FVal.nan [] [] [] 0
      ⟨[], [], []⟩ 0 0 (Or.inl rfl)⟩

/-- C1 counterexample: a NaN sitting only in a per-layer gradient
accumulator (here lg_wq) is not checked: the step applies the update,
reports success, and writes the NaN into the layer weight w_q, while
the claim requires failure with all weights unchanged. -/
theorem train_guard_misses_layer_grad_nan :
    (LayerGrads.lg_wq ⟨[FVal.nan], [], [], [], [], [], [], [], [], []⟩).any isBad = true ∧
      (guardUpdate (FVal.fin 1) (FVal.fin 0) [FVal.fin 0] [FVal.fin 0]
          [⟨[FVal.nan], [], [], [], [], [], [], [], [], []⟩] 1
          ⟨[FVal.fin 0], [FVal.fin 0], [⟨[FVal.fin 1], [], [], [], [], [], [], [], [], []⟩]⟩
          0 0).ok = true ∧
      ((guardUpdate (FVal.fin 1) (FVal.fin 0) [FVal.fin 0] [FVal.fin 0]
          [⟨[FVal.nan], [], [], [], [], [], [], [], [], []⟩] 1
          ⟨[FVal.fin 0], [FVal.fin 0], [⟨[FVal.fin 1], [], [], [], [], [], [], [], [], []⟩]⟩
          0 0).model.layers.map (fun L => L.w_q)) = [[FVal.nan]] := by
  refine ⟨rfl, rfl, rfl⟩

/-- C7: when the guard passes, the step succeeds, the age advances by
num_tokens, the sample counter by one, and every updated cell uses the
effective rate lr / ln(age + e): the embedding table and output
projection move by exactly that rate times their gradient, and all ten
tensors of every layer move by exactly 0.1 times that rate times their
accumulated gradient. -/
theorem train_update_learning_rates (lr : ℝ) (age samples numTokens : ℕ)
    (avgLoss : FVal) (gEmb gOut : List FVal) (lgs : List LayerGrads)
    (m : TransformerModel)
    (hL : isBad avgLoss = false) (hO : gOut.any isBad = false)
    (hE : gEmb.any isBad = false) :
    (guardUpdate (.fin (lr / Real.log (age + Real.exp 1))) avgLoss gEmb gOut lgs
        numTokens m age samples).ok = true ∧
    (guardUpdate (.fin (lr / Real.log (age + Real.exp 1))) avgLoss gEmb gOut lgs
        numTokens m age samples).age = age + numTokens ∧
    (guardUpdate (.fin (lr / Real.log (age + Real.exp 1))) avgLoss gEmb gOut lgs
        numTokens m age samples).samples = samples + 1 ∧
    (∀ i a b, m.token_embeddings.get? i = some (.fin a) → gEmb.get? i = some (.fin b) →
      (guardUpdate (.fin (lr / Real.log (age + Real.exp 1))) avgLoss gEmb gOut lgs
          numTokens m age samples).model.token_embeddings.get? i =
        some (.fin (a - lr / Real.log (age + Real.exp 1) * b))) ∧
    (∀ i a b, m.output_proj.get? i = some (.fin a) → gOut.get? i = some (.fin b) →
      (guardUpdate (.fin (lr / Real.log (age + Real.exp 1))) avgLoss gEmb gOut lgs
          numTokens m age samples).model.output_proj.get? i =
        some (.fin (a - lr / Real.log (age + Real.exp 1) * b))) ∧
    (∀ l L G, m.layers.get? l = some L → lgs.get? l = some G →
      (guardUpdate (.fin (lr / Real.log (age + Real.exp 1))) avgLoss gEmb gOut lgs
          numTokens m age samples).model.layers.get? l =
        some (updLayer (mulF (.fin (lr / Real.log (age + Real.exp 1))) (.fin 0.1)) L G) ∧
      (∀ w g, (∀ i a b, w.get? i = some (.fin a) → g.get? i = some (.fin b) →
        (updVec (mulF (.fin (lr / Real.log (age + Real.exp 1))) (.fin 0.1)) w g).get? i =
          some (.fin (a - 0.1 * (lr / Real.log (age + Real.exp 1)) * b))))) := by
  have hcond : (gOut.any isBad || gEmb.any isBad) = false := by
    rw [hO, hE]
    rfl
  have hstep : guardUpdate (.fin (lr / Real.log (age + Real.exp 1))) avgLoss gEmb gOut lgs
      numTokens m age samples =
      ⟨⟨updVec (.fin (lr / Real.log (age + Real.exp 1))) m.token_embeddings gEmb,
        updVec (.fin (lr / Real.log (age + Real.exp 1))) m.output_proj gOut,
        List.zipWith (updLayer (mulF (.fin (lr / Real.log (age + Real.exp 1))) (.fin 0.1)))
          m.layers lgs⟩,
       age + numTokens, samples + 1, true⟩ := by
    unfold guardUpdate
    rw [hL, hcond]
    rfl
  rw [hstep]
  refine ⟨rfl, rfl, rfl, ?_, ?_, ?_⟩
  · intro i a b ha hb
    exact updVec_fin_get? _ m.token_embeddings gEmb i a b ha hb
  · intro i a b ha hb
    exact updVec_fin_get? _ m.output_proj gOut i a b ha hb
  · intro l L G hl hg
    refine ⟨zipWith_get?_some _ m.layers lgs l L G hl hg, ?_⟩
    intro w g i a b ha hb
    exact updVec_scaled_get? _ w g i a b ha hb

/-- C7 witness: concrete model of one embedding cell and one output
cell, zero loss and gradient 1; the step succeeds. -/
theorem train_update_learning_rates_witness :
    (isBad (FVal.fin 0) = false ∧ ([FVal.fin 1] : List FVal).any isBad = false) ∧
      (guardUpdate (.fin ((1 : ℝ) / Real.log ((0 : ℕ) + Real.exp 1))) (FVal.fin 0)
          [FVal.fin 1] [FVal.fin 1] [] 1 ⟨[FVal.fin 1], [FVal.fin 1], []⟩ 0 0).ok = true :=
  ⟨⟨rfl, rfl⟩,
    (train_update_learning_rates 1 0 0 1 (FVal.fin 0) [FVal.fin 1] [FVal.fin 1] []
      ⟨[FVal.fin 1], [FVal.fin 1], []⟩ rfl rfl rfl).1⟩

/-- C8: when the combined sanitized token sequence of the prompt and the
completion has length below 2, native_train_step returns failure and
leaves the model and the age and sample counters unchanged. -/
theorem train_step_degenerate_input (inputText outputText : List ℕ) (vocabSize : ℕ)
    (lr : ℝ) (m : TransformerModel) (age samples : ℕ)
    (oracle : List ℕ → FVal × List FVal × List FVal × List LayerGrads)
    (h : (trainTokens inputText outputText vocabSize).length < 2) :
    nativeTrainStep inputText outputText vocabSize lr m age samples oracle =
      ⟨m, age, samples, false⟩ := by
  unfold nativeTrainStep
  rw [if_pos h]

/-- C8 witness: a one-byte completion with an empty prompt is degenerate;
the step fails with nothing changed. -/
theorem train_step_degenerate_input_witness :
    (trainTokens [] [65] 256).length < 2 ∧
      nativeTrainStep [] [65] 256 1 ⟨[], [], []⟩ 3 4
          (fun _ => (FVal.fin 0, [], [], [])) =
        ⟨⟨[], [], []⟩, 3, 4, false⟩ :=
  ⟨by decide,
    train_step_degenerate_input [] [65] 256 1 ⟨[], [], []⟩ 3 4
      (fun _ => (FVal.fin 0, [], [], [])) (by decide)⟩

/-- One replay-buffer slot: question, answer, last_loss, train_count,
converged flag. -/
structure ReplayEntry where
  question : List ℕ
  answer : List ℕ
  last_loss : ℚ
  train_count : ℕ
  converged : Bool
deriving DecidableEq

instance : Inhabited ReplayEntry := ⟨⟨[], [], 0, 0, false⟩⟩

/-- First loop of replay_buffer_add: at the first slot whose question
matches, keep the lower loss, increment train_count, and return; none
when no occupied slot matches. -/
def replayUpdateExisting : List ReplayEntry → List ℕ → ℚ → Option (List ReplayEntry)
  | [], _, _ => none
  | e :: rest, q, loss =>
    if e.question = q then
      some ({ e with
              last_loss := if loss < e.last_loss then loss else e.last_loss,
              train_count := e.train_count + 1 } :: rest)
    else
      match replayUpdateExisting rest q loss with
      | some rest2 => some (e :: rest2)
      | none => none

/-- Replacement test of the eviction scan: the candidate replaces the
current choice when it is converged and the current one is not, or when
both converged flags agree and the candidate has the strictly larger
train_count (the two if statements of the C loop). -/
def evictBeats (cand worst : ReplayEntry) : Bool :=
  (cand.converged && !worst.converged) ||
    ((cand.converged == worst.converged) && decide (worst.train_count < cand.train_count))

/-- One step of the eviction scan over slot indices. -/
def evictStep (buf : List ReplayEntry) (worst i : ℕ) : ℕ :=
  if evictBeats (buf.getD i default) (buf.getD worst default) = true then i else worst

/-- Eviction scan of replay_buffer_add: linear pass over the slots
starting from slot 0 (index 0 never beats itself, so folding over all
indices equals the C loop that starts at index 1). -/
def evictIdx (buf : List ReplayEntry) : ℕ :=
  (List.range buf.length).foldl (evictStep buf) 0

/-- Fresh slot written by replay_buffer_add: question and answer
truncated by strncpy to 511 and 1023 bytes, the given loss,
train_count 1, not converged. -/
def newReplayEntry (q a : List ℕ) (loss : ℚ) : ReplayEntry :=
  ⟨q.take 511, a.take 1023, loss, 1, false⟩

/-- Embedding of replay_buffer_add over the occupied slots (the C
buffer holds g_replay_count entries, at most REPLAY_BUFFER_SIZE = 32). -/
def replayBufferAdd (buf : List ReplayEntry) (q a : List ℕ) (loss : ℚ) :
    List ReplayEntry :=
  match replayUpdateExisting buf q loss with
  | some buf2 => buf2
  | none =>
    if 32 ≤ buf.length then
      buf.set (evictIdx buf) (newReplayEntry q a loss)
    else
      buf ++ [newReplayEntry q a loss]

/-- Eviction preference order: y is at least as evictable as x when y is
converged and x is not, or both flags agree and y has trained at least
as often. -/
def evictLE (x y : ReplayEntry) : Prop :=
  (x.converged = false ∧ y.converged = true) ∨
    (x.converged = y.converged ∧ x.train_count ≤ y.train_count)

theorem evictLE_refl (x : ReplayEntry) : evictLE x x :=
  Or.inr ⟨rfl, le_refl _⟩

theorem evictLE_trans (x y z : ReplayEntry) :
    evictLE x y → evictLE y z → evictLE x z := by
  intro hxy hyz
  rcases hxy with ⟨h1, h2⟩ | ⟨h1, h2⟩ <;> rcases hyz with ⟨h3, h4⟩ | ⟨h3, h4⟩
  · rw [h2] at h3
    cases h3
  · exact Or.inl ⟨h1, h3 ▸ h2⟩
  · exact Or.inl ⟨h1.trans h3, h4⟩
  · exact Or.inr ⟨h1.trans h3, h2.trans h4⟩

theorem evictBeats_false (c w : ReplayEntry) :
    evictBeats c w = false → evictLE c w := by
  intro h
  unfold evictBeats at h
  unfold evictLE
  cases hc : c.converged <;> cases hw : w.converged <;> simp_all

theorem evictBeats_true (c w : ReplayEntry) :
    evictBeats c w = true → evictLE w c := by
  intro h
  unfold evictBeats at h
  unfold evictLE
  cases hc : c.converged <;> cases hw : w.converged <;> simp_all <;> omega

theorem evictScan_le (buf : List ReplayEntry) (l : List ℕ) (w : ℕ) :
    (∀ j ∈ l, evictLE (buf.getD j default)
        (buf.getD (l.foldl (evictStep buf) w) default)) ∧
      evictLE (buf.getD w default) (buf.getD (l.foldl (evictStep buf) w) default) ∧
      (l.foldl (evictStep buf) w = w ∨ l.foldl (evictStep buf) w ∈ l) := by
  induction l generalizing w with
  | nil =>
    refine ⟨?_, evictLE_refl _, Or.inl rfl⟩
    intro j hj
    simp at hj
  | cons i rest ih =>
    by_cases hbeat : evictBeats (buf.getD i default) (buf.getD w default) = true
    · have hstep : evictStep buf w i = i := by
        unfold evictStep
        rw [if_pos hbeat]
      have hfold : (i :: rest).foldl (evictStep buf) w =
          rest.foldl (evictStep buf) i := by
        show rest.foldl (evictStep buf) (evictStep buf w i) = _
        rw [hstep]
      obtain ⟨ih1, ih2, ih3⟩ := ih i
      rw [hfold]
      refine ⟨?_, evictLE_trans _ _ _ (evictBeats_true _ _ hbeat) ih2, ?_⟩
      · intro j hj
        rcases List.mem_cons.mp hj with rfl | hj2
        · exact ih2
        · exact ih1 j hj2
      · rcases ih3 with h | h
        · refine Or.inr ?_
          rw [h]
          exact List.mem_cons_self i rest
        · exact Or.inr (List.mem_cons_of_mem i h)
    · have hbf : evictBeats (buf.getD i default) (buf.getD w default) = false :=
        Bool.eq_false_iff.mpr hbeat
      have hstep : evictStep buf w i = w := by
        unfold evictStep
        rw [if_neg hbeat]
      have hfold : (i :: rest).foldl (evictStep buf) w =
          rest.foldl (evictStep buf) w := by
        show rest.foldl (evictStep buf) (evictStep buf w i) = _
        rw [hstep]
      obtain ⟨ih1, ih2, ih3⟩ := ih w
      rw [hfold]
      refine ⟨?_, ih2, ?_⟩
      · intro j hj
        rcases List.mem_cons.mp hj with rfl | hj2
        · exact evictLE_trans _ _ _ (evictBeats_false _ _ hbf) ih2
        · exact ih1 j hj2
      · rcases ih3 with h | h
        · exact Or.inl h
        · exact Or.inr (List.mem_cons_of_mem i h)

theorem evictIdx_le (buf : List ReplayEntry) (j : ℕ) (hj : j < buf.length) :
    evictLE (buf.getD j default) (buf.getD (evictIdx buf) default) :=
  (evictScan_le buf (List.range buf.length) 0).1 j (List.mem_range.mpr hj)

theorem evictIdx_lt (buf : List ReplayEntry) (h : 0 < buf.length) :
    evictIdx buf < buf.length := by
  rcases (evictScan_le buf (List.range buf.length) 0).2.2 with h0 | hmem
  · rw [evictIdx, h0]
    exact h
  · exact List.mem_range.mp hmem

theorem replayUpdateExisting_none (buf : List ReplayEntry) (q : List ℕ) (loss : ℚ)
    (h : ∀ p ∈ buf, p.question ≠ q) : replayUpdateExisting buf q loss = none := by
  induction buf with
  | nil => rfl
  | cons e rest ih =>
    unfold replayUpdateExisting
    rw [if_neg (h e (List.mem_cons_self e rest))]
    rw [ih (fun p hp => h p (List.mem_cons_of_mem e hp))]

theorem replayUpdateExisting_first (pre post : List ReplayEntry) (e : ReplayEntry)
    (q : List ℕ) (loss : ℚ) (hpre : ∀ p ∈ pre, p.question ≠ q) (he : e.question = q) :
    replayUpdateExisting (pre ++ e :: post) q loss =
      some (pre ++ { e with
        last_loss := if loss < e.last_loss then loss else e.last_loss,
        train_count := e.train_count + 1 } :: post) := by
  induction pre with
  | nil =>
    show replayUpdateExisting (e :: post) q loss = _
    unfold replayUpdateExisting
    rw [if_pos he]
    rfl
  | cons p rest ih =>
    have hne : p.question ≠ q := hpre p (List.mem_cons_self p rest)
    have hrest : ∀ r ∈ rest, r.question ≠ q :=
      fun r hr => hpre r (List.mem_cons_of_mem p hr)
    show replayUpdateExisting (p :: (rest ++ e :: post)) q loss = _
    unfold replayUpdateExisting
    rw [if_neg hne]
    rw [ih hrest]
    rfl

/-- C9: replay_buffer_add updates a duplicate question in place (lower
loss kept, train_count incremented, no slot added) and, on a full
buffer with no duplicate, overwrites the slot chosen by the eviction
scan, which prefers converged slots and, between slots with the same
converged flag, the one with the larger train_count. -/
theorem replay_buffer_add_spec :
    (∀ (pre post : List ReplayEntry) (e : ReplayEntry) (q a : List ℕ) (loss : ℚ),
      (∀ p ∈ pre, p.question ≠ q) → e.question = q →
      replayBufferAdd (pre ++ e :: post) q a loss =
        pre ++ { e with
                 last_loss := min e.last_loss loss,
                 train_count := e.train_count + 1 } :: post) ∧
    (∀ (buf : List ReplayEntry) (q a : List ℕ) (loss : ℚ),
      (∀ p ∈ buf, p.question ≠ q) → buf.length = 32 →
      replayBufferAdd buf q a loss = buf.set (evictIdx buf) (newReplayEntry q a loss) ∧
      evictIdx buf < buf.length ∧
      (∀ j, j < buf.length →
        ((buf.getD j default).converged = true →
          (buf.getD (evictIdx buf) default).converged = true) ∧
        ((buf.getD j default).converged = (buf.getD (evictIdx buf) default).converged →
          (buf.getD j default).train_count ≤
            (buf.getD (evictIdx buf) default).train_count))) := by
  constructor
  · intro pre post e q a loss hpre he
    have hmin : (if loss < e.last_loss then loss else e.last_loss) =
        min e.last_loss loss := by
      rcases lt_or_le loss e.last_loss with h | h
      · rw [if_pos h, min_eq_right (le_of_lt h)]
      · rw [if_neg (not_lt.mpr h), min_eq_left h]
    unfold replayBufferAdd
    rw [replayUpdateExisting_first pre post e q loss hpre he, hmin]
  · intro buf q a loss hq hlen
    have hnone := replayUpdateExisting_none buf q loss hq
    have hpos : 0 < buf.length := by omega
    refine ⟨?_, evictIdx_lt buf hpos, ?_⟩
    · unfold replayBufferAdd
      rw [hnone]
      rw [if_pos (by omega)]
    · intro j hj
      have hle := evictIdx_le buf j hj
      rcases hle with ⟨h1, h2⟩ | ⟨h1, h2⟩
      · exact ⟨fun hc => h2, fun hc => by rw [h1, h2] at hc; cases hc⟩
      · exact ⟨fun hc => h1 ▸ hc, fun _ => h2⟩

/-- C9 witness: updating a one-slot buffer holding the same question
keeps the lower loss and bumps train_count without adding a slot. -/
theorem replay_buffer_add_spec_witness :
    ((∀ p ∈ ([] : List ReplayEntry), p.question ≠ [1]) ∧
        ReplayEntry.question ⟨[1], [2], 5, 3, false⟩ = [1]) ∧
      replayBufferAdd [⟨[1], [2], 5, 3, false⟩] [1] [9] 7 =
        [⟨[1], [2], min 5 7, 4, false⟩] :=
  ⟨⟨fun p hp => absurd hp (List.not_mem_nil p), rfl⟩, by
    have h := replay_buffer_add_spec.1 [] [] ⟨[1], [2], 5, 3, false⟩ [1] [9] 7
      (fun p hp => absurd hp (List.not_mem_nil p)) rfl
    simpa using h⟩

/-- Sentence terminators tested by generate_response: '.', '!', '?' as
bytes 46, 33, 63. -/
def isTermByte (c : ℕ) : Bool := c == 46 || c == 33 || c == 63

/-- Count of sentence terminators in the whole output buffer (the
sent_count scan of generate_response). -/
def sentCount (out : List ℕ) : ℕ := out.countP isTermByte

/-- Test whether the output buffer ends in a sentence terminator
(output[output_len−1] in the C code). -/
def lastIsTerm (out : List ℕ) : Bool :=
  match out.getLast? with
  | some c => isTermByte c
  | none => false

/-- Early-stop decision taken by generate_response after the output
buffer has been extended, given the lookahead space probability for
this step: only when the output is longer than 3 bytes and ends in a
terminator; then stop when at least 3 terminators were produced, or
when the output is at most 18 bytes, or — at 19 bytes or more — when
the lookahead probability of a space is below 0.3. -/
def stopAfterTerminator (out : List ℕ) (spaceProb : ℚ) : Bool :=
  if 3 < out.length ∧ lastIsTerm out = true then
    if 3 ≤ sentCount out then true
    else if out.length ≤ 18 then true
    else decide (spaceProb < 3 / 10)
  else false

/-- Length of the segment since the previous terminator as the claim
reads: the run of non-terminator bytes immediately before the final
terminator. Stated from the claim text, for the refinement comparison
with the code. -/
def claimSegmentLen (out : List ℕ) : ℕ :=
  (out.dropLast.reverse.takeWhile (fun c => !isTermByte c)).length

/-- Early-stop condition as the claim states it: at least 3 sentence
terminators, or a segment of at least 20 characters since the previous
terminator together with a lookahead space probability below 0.3.
Stated from the claim text, for the refinement comparison. -/
def claimStopCond (out : List ℕ) (spaceProb : ℚ) : Bool :=
  decide (3 ≤ sentCount out) ||
    (decide (20 ≤ claimSegmentLen out) && decide (spaceProb < 3 / 10))

/-- State of the generation loop of generate_response: output buffer,
token-id buffer, and per-token emission counts. -/
structure GenState where
  output : List ℕ
  tokenIds : List ℕ
  counts : ℕ → ℕ

/-- One step of the generation loop after a token has been sampled:
bump its repetition count, append it to the token buffer when there is
room (max_seq_len·4 slots), append it to the output only when
0 < token < 128, then stop immediately on newline (10) or the null
token, else by the sentence-terminator heuristic on the new output. -/
def genStep (maxSeqLen : ℕ) (s : GenState) (tok : ℕ) (spaceProb : ℚ) :
    GenState × Bool :=
  let s2 : GenState :=
    ⟨if 0 < tok ∧ tok < 128 then s.output ++ [tok] else s.output,
     if s.tokenIds.length < maxSeqLen * 4 then s.tokenIds ++ [tok] else s.tokenIds,
     fun t => if t = tok then s.counts t + 1 else s.counts t⟩
  (s2, if tok = 10 ∨ tok = 0 then true else stopAfterTerminator s2.output spaceProb)

/-- Generation loop of generate_response: run up to fuel steps, stopping
when a step says so; sample and sprob are the step-indexed streams of
sampled tokens and lookahead space probabilities, abstracting the
forward passes and the random draws. -/
def genLoop (maxSeqLen : ℕ) (sample : ℕ → ℕ) (sprob : ℕ → ℚ) :
    ℕ → ℕ → GenState → GenState
  | 0, _, s => s
  | fuel + 1, step, s =>
    let r := genStep maxSeqLen s (sample step) (sprob step)
    if r.2 then r.1 else genLoop maxSeqLen sample sprob fuel (step + 1) r.1

/-- Embedding of generate_response: seed the token buffer with the
prompt bytes modulo vocab_size (at most max_seq_len of them), start
with an empty output and zero repetition counts, run the loop for
max_tokens steps, and return the output buffer. -/
def generateResponse (maxSeqLen vocabSize maxTokens : ℕ) (prompt : List ℕ)
    (sample : ℕ → ℕ) (sprob : ℕ → ℚ) : List ℕ :=
  (genLoop maxSeqLen sample sprob maxTokens 0
    ⟨[], (prompt.take maxSeqLen).map (fun c => c % vocabSize), fun _ => 0⟩).output

/-- C4 counterexample: at the 10-byte output "Hello you." with a high
lookahead space probability, the code stops (its output is at most 18
bytes), while the claim's condition — 3 terminators, or a 20-byte
segment with low space probability — does not hold, so the claim's
"exactly when" fails. -/
theorem generation_stop_short_output :
    stopAfterTerminator [72, 101, 108, 108, 111, 32, 121, 111, 117, 46] (9 / 10) = true ∧
      claimStopCond [72, 101, 108, 108, 111, 32, 121, 111, 117, 46] (9 / 10) = false := by
  constructor
  · decide
  · decide

/-- C4 (amended): after a token is emitted, the terminator heuristic
stops generation exactly when the output is longer than 3 bytes, ends
in a sentence terminator, and (a) at least 3 terminators were produced,
or (b) the whole output so far is at most 18 bytes, or (c) the output
is at least 19 bytes and the one-step lookahead space probability is
below 0.3. -/
theorem generation_stop_conditions (out : List ℕ) (p : ℚ) :
    stopAfterTerminator out p = true ↔
      (3 < out.length ∧ lastIsTerm out = true ∧
        (3 ≤ sentCount out ∨ out.length ≤ 18 ∨ p < 3 / 10)) := by
  unfold stopAfterTerminator
  by_cases h1 : 3 < out.length ∧ lastIsTerm out = true
  · rw [if_pos h1]
    by_cases h2 : 3 ≤ sentCount out
    · rw [if_pos h2]
      constructor
      · intro _
        exact ⟨h1.1, h1.2, Or.inl h2⟩
      · intro _
        rfl
    · rw [if_neg h2]
      by_cases h3 : out.length ≤ 18
      · rw [if_pos h3]
        constructor
        · intro _
          exact ⟨h1.1, h1.2, Or.inr (Or.inl h3)⟩
        · intro _
          rfl
      · rw [if_neg h3]
        constructor
        · intro hd
          exact ⟨h1.1, h1.2, Or.inr (Or.inr (of_decide_eq_true hd))⟩
        · intro hcon
          rcases hcon.2.2 with h | h | h
          · exact absurd h h2
          · exact absurd h h3
          · exact decide_eq_true h
  · rw [if_neg h1]
    constructor
    · intro hfalse
      cases hfalse
    · intro hcon
      exact absurd ⟨hcon.1, hcon.2.1⟩ h1

/-- C10 counterexample against the unconditional token-buffer conjunct:
with max_seq_len = 1 the token buffer holds max_seq_len·4 = 4 slots; a
run of 6 sampled 200-tokens from a one-byte prompt fills it to
[7, 200, 200, 200] and the later tokens are dropped, and one further
step at that full state leaves the buffer unchanged instead of
appending — while the claim says a token ≥ 128 still counts toward the
token buffer. -/
theorem generation_token_buffer_drop :
    (128 ≤ (200 : ℕ)) ∧
      (genLoop 1 (fun _ => 200) (fun _ => 0) 6 0
          ⟨[], [7], fun _ => 0⟩).tokenIds = [7, 200, 200, 200] ∧
      (genStep 1 ⟨[], [7, 200, 200, 200], fun _ => 0⟩ 200 0).1.tokenIds =
        [7, 200, 200, 200] := by
  refine ⟨by decide, by decide, rfl⟩

/-- C10 (amended): the generator only ever appends bytes in 1..127 to
its output (newline, byte 10, included — it is appended and then stops
the loop); a sampled token that is 0 or at least 128 leaves the output
untouched while still entering the repetition counts, and it enters the
token buffer exactly when the buffer is below its max_seq_len·4
capacity — once full, the token is dropped from the buffer; and
sampling the null token or the newline token stops generation at that
step. -/
theorem generation_output_byte_range :
    (∀ (maxSeqLen vocabSize maxTokens : ℕ) (prompt : List ℕ)
        (sample : ℕ → ℕ) (sprob : ℕ → ℚ) (b : ℕ),
      b ∈ generateResponse maxSeqLen vocabSize maxTokens prompt sample sprob →
        1 ≤ b ∧ b ≤ 127) ∧
    (∀ (maxSeqLen : ℕ) (s : GenState) (p : ℚ) (tok : ℕ),
      tok = 0 ∨ 128 ≤ tok →
        (genStep maxSeqLen s tok p).1.output = s.output ∧
        (genStep maxSeqLen s tok p).1.counts tok = s.counts tok + 1 ∧
        (s.tokenIds.length < maxSeqLen * 4 →
          (genStep maxSeqLen s tok p).1.tokenIds = s.tokenIds ++ [tok]) ∧
        (¬ s.tokenIds.length < maxSeqLen * 4 →
          (genStep maxSeqLen s tok p).1.tokenIds = s.tokenIds)) ∧
    (∀ (maxSeqLen : ℕ) (s : GenState) (p : ℚ),
      (genStep maxSeqLen s 0 p).2 = true ∧ (genStep maxSeqLen s 10 p).2 = true) := by
  have hout : ∀ (maxSeqLen : ℕ) (s : GenState) (tok : ℕ) (p : ℚ),
      (genStep maxSeqLen s tok p).1.output =
        if 0 < tok ∧ tok < 128 then s.output ++ [tok] else s.output := by
    intro maxSeqLen s tok p
    rfl
  refine ⟨?_, ?_, ?_⟩
  · have hloop : ∀ (maxSeqLen : ℕ) (sample : ℕ → ℕ) (sprob : ℕ → ℚ)
        (fuel step : ℕ) (s : GenState),
        (∀ b ∈ s.output, 1 ≤ b ∧ b ≤ 127) →
        ∀ b ∈ (genLoop maxSeqLen sample sprob fuel step s).output, 1 ≤ b ∧ b ≤ 127 := by
      intro maxSeqLen sample sprob fuel
      induction fuel with
      | zero =>
        intro step s hs
        simpa [genLoop] using hs
      | succ n ih =>
        intro step s hs
        have hstep : ∀ b ∈ (genStep maxSeqLen s (sample step) (sprob step)).1.output,
            1 ≤ b ∧ b ≤ 127 := by
          intro b hb
          rw [hout] at hb
          by_cases hr : 0 < sample step ∧ sample step < 128
          · rw [if_pos hr] at hb
            rcases List.mem_append.mp hb with hb | hb
            · exact hs b hb
            · have : b = sample step := by simpa using hb
              omega
          · rw [if_neg hr] at hb
            exact hs b hb
        simp only [genLoop]
        by_cases hflag : (genStep maxSeqLen s (sample step) (sprob step)).2 = true
        · simp only [hflag, if_true]
          exact hstep
        · simp only [Bool.not_eq_true] at hflag
          simp only [hflag, if_false]
          exact ih (step + 1) _ hstep
    intro maxSeqLen vocabSize maxTokens prompt sample sprob b hb
    exact hloop maxSeqLen sample sprob maxTokens 0 _ (by simp) b hb
  · intro maxSeqLen s p tok htok
    refine ⟨?_, ?_, ?_, ?_⟩
    · rw [hout]
      rw [if_neg]
      omega
    · show (if tok = tok then s.counts tok + 1 else s.counts tok) = s.counts tok + 1
      rw [if_pos rfl]
    · intro hroom
      show (if s.tokenIds.length < maxSeqLen * 4 then s.tokenIds ++ [tok]
        else s.tokenIds) = s.tokenIds ++ [tok]
      rw [if_pos hroom]
    · intro hfull
      show (if s.tokenIds.length < maxSeqLen * 4 then s.tokenIds ++ [tok]
        else s.tokenIds) = s.tokenIds
      rw [if_neg hfull]
  · intro maxSeqLen s p
    constructor
    · simp [genStep]
    · simp [genStep]

/-- C10 witness: a concrete two-step run sampling byte 65 twice returns
the output [65, 65]; its member 65 lies in 1..127 by the range theorem. -/
theorem generation_output_byte_range_witness :
    65 ∈ generateResponse 4 256 2 [] (fun _ => 65) (fun _ => 1) ∧
      1 ≤ 65 ∧ 65 ≤ 127 :=
  ⟨by decide,
    generation_output_byte_range.1 4 256 2 [] (fun _ => 65) (fun _ => 1) 65 (by decide)⟩

end EigenScript
